import Mathlib

/-!
Shallow embedding of the catwalk core (`src/catwalk_core.py`): graph
construction (`Graph.__init__`, `_edge_endpoints`, `_build_adjacency`,
`get_start_nodes`), topological compilation (`Compiler.compile`) and the
execution runtime (`Runtime.run`, `Runtime._execute`,
`Runtime._resolve_func`).

Python values relevant to the claims are modelled as `Value`; exceptions
as `PyErr`; the execution context dict as an insertion-ordered
association list `Ctx` with keyed-overwrite update (`ctxSet`), matching
Python dict semantics.  The async layer (`asyncio` / `run_in_executor`)
is sequential by construction in the source — every awaited call
completes before the next node starts — so `run` is modelled as a
sequential fold.
-/

namespace Catwalk

/-- Python values stored in the execution context (`None`, ints). -/
inductive Value where
  | vNone : Value
  | vInt : Int → Value
  | vStr : String → Value
deriving DecidableEq, Repr

/-- Python exceptions that the modelled code can raise. -/
inductive PyErr where
  | keyError (key : String)
  | valueError (msg : String)
  | importError (msg : String)
  | attributeError (msg : String)
  | userError (msg : String)
deriving DecidableEq, Repr

/-- The execution context: a Python dict, insertion ordered. -/
abbrev Ctx := List (String × Value)

/-- A node function: takes the whole context, returns a value or raises. -/
abbrev Fn := Ctx → Except PyErr Value

/-- The `func` attribute of a node: absent/None, a string reference, or a
callable (`getattr(node, "func", None)`). -/
inductive PyFunc where
  | noneF : PyFunc
  | strF : String → PyFunc
  | fnF : Fn → PyFunc

/-- A workflow node: `id` plus its `func` attribute. -/
structure Node where
  id : String
  func : PyFunc := .noneF

/-- A workflow edge: any subset of the four endpoint attributes may be
present (`getattr(e, "source", None)` etc.); `from_`/`to_` stand for the
Python attributes `from`/`to`. -/
structure Edge where
  source : Option String := none
  target : Option String := none
  from_ : Option String := none
  to_ : Option String := none

/-- Python `a or b` on optional strings: `None` and the empty string are
falsy and fall through to `b`. -/
def pyOr (a b : Option String) : Option String :=
  match a with
  | some s => if s = "" then b else some s
  | none => b

/-- `Graph._edge_endpoints`: resolve the two accepted naming conventions. -/
def edgeEndpoints (e : Edge) : Option String × Option String :=
  (pyOr e.source e.from_, pyOr e.target e.to_)

/-- Resolved target of an edge, as used by `get_start_nodes`. -/
def edgeTarget (e : Edge) : Option String :=
  pyOr e.target e.to_

/-- Keys of the Python dict `{n.id: n for n in nodes}`: first-occurrence
order, duplicates dropped. -/
def dedupKeys (l : List String) : List String :=
  l.foldl (fun acc x => if x ∈ acc then acc else acc ++ [x]) []

/-- Python `x in self.nodes` where `x` may be `None`. -/
def memKeys (keys : List String) : Option String → Bool
  | none => false
  | some s => keys.contains s

/-- Rendering of an optional endpoint inside the f-string
`f"Invalid edge {src} -> {dst}"`. -/
def showEndpoint : Option String → String
  | none => "None"
  | some s => s

/-- The `ValueError` message raised by `_build_adjacency`. -/
def edgeErrMsg (src dst : Option String) : String :=
  "Invalid edge " ++ showEndpoint src ++ " -> " ++ showEndpoint dst

/-- Adjacency: ordered association list id → ordered successor ids. -/
abbrev Adj := List (String × List String)

/-- `adj[src].append(dst)`. -/
def adjAppend (adj : Adj) (src dst : String) : Adj :=
  adj.map (fun p => if p.1 = src then (p.1, p.2 ++ [dst]) else p)

/-- `graph.adj.get(node_id, [])`. -/
def adjGet (adj : Adj) (k : String) : List String :=
  match adj.find? (fun p => p.1 == k) with
  | some p => p.2
  | none => []

/-- The edge loop of `Graph._build_adjacency`: raises `ValueError` on the
first edge whose resolved endpoints are not both existing node ids. -/
def buildAdjacency (keys : List String) : List Edge → Adj → Except PyErr Adj
  | [], adj => .ok adj
  | e :: es, adj =>
    if memKeys keys (edgeEndpoints e).1 && memKeys keys (edgeEndpoints e).2 then
      buildAdjacency keys es
        (adjAppend adj ((edgeEndpoints e).1.getD "") ((edgeEndpoints e).2.getD ""))
    else
      .error (.valueError (edgeErrMsg (edgeEndpoints e).1 (edgeEndpoints e).2))

/-- A successfully constructed `Graph`. -/
structure Graph where
  keys : List String
  nodes : List Node
  edges : List Edge
  adj : Adj

/-- `Graph.__init__`: builds `nodesById` and the adjacency; raising in
`_build_adjacency` aborts construction. -/
def mkGraph (nodes : List Node) (edges : List Edge) : Except PyErr Graph :=
  match buildAdjacency (dedupKeys (nodes.map Node.id)) edges
      ((dedupKeys (nodes.map Node.id)).map (fun k => (k, []))) with
  | .error e => .error e
  | .ok adj => .ok ⟨dedupKeys (nodes.map Node.id), nodes, edges, adj⟩

/-- `self.graph.nodes[node_id]` (dict: last assignment wins). -/
def nodeLookup (g : Graph) (nid : String) : Option Node :=
  g.nodes.reverse.find? (fun n => n.id == nid)

/-- `Graph.get_start_nodes`: node ids that are not a resolved target of
any edge, in declaration order. -/
def get_start_nodes (g : Graph) : List String :=
  g.keys.filter (fun nid => !(g.edges.any (fun e => edgeTarget e == some nid)))

/-! ### Compiler -/

/-- DFS state: (visited, postorder working list). -/
abbrev St := List String × List String

/-- The inner `dfs` of `Compiler.compile`, fuel-indexed.  With fuel
exceeding the number of unvisited adjacency keys the fuel never runs
out (proved below), so this is a faithful model of the unbounded Python
recursion. -/
def dfsNode (adj : Adj) : Nat → String → St → St
  | 0, _, st => st
  | fuel+1, nid, st =>
    if st.1.contains nid then st
    else
      let st1 : St := (st.1 ++ [nid], st.2)
      let st2 := (adjGet adj nid).foldl (fun s b => dfsNode adj fuel b s) st1
      (st2.1, st2.2 ++ [nid])

/-- The `for start in graph.get_start_nodes(): dfs(start)` loop. -/
def dfsStarts (adj : Adj) (fuel : Nat) (starts : List String) : St :=
  starts.foldl (fun st s => dfsNode adj fuel s st) ([], [])

/-- `Compiler.compile` with explicit fuel. -/
def compileFuel (g : Graph) (fuel : Nat) : List String :=
  (dfsStarts g.adj fuel (get_start_nodes g)).2.reverse

/-- `Compiler.compile`: DFS postorder from every start node with one
shared visited set, then one final reversal. -/
def compile (g : Graph) : List String :=
  compileFuel g (g.adj.length + 1)

/-! ### Runtime -/

/-- The process environment that `_resolve_func` consults: the module's
`globals()` registry, `__import__` + `getattr` (which may raise), and
`eval` of inline lambda strings (which may raise). -/
structure Env where
  registry : String → Option Fn
  importSym : String → String → Except PyErr Fn
  evalLambda : String → Except PyErr Fn

/-- Python `func_str.split(".")`: split on every dot, empty pieces kept,
`"".split(".") == [""]`. -/
def pySplitDotAux : List Char → List Char → List (List Char)
  | [], acc => [acc.reverse]
  | c :: cs, acc =>
    if c = '.' then acc.reverse :: pySplitDotAux cs []
    else pySplitDotAux cs (c :: acc)

/-- Python `func_str.split(".")` on a string. -/
def pySplitDot (s : String) : List String :=
  (pySplitDotAux s.toList []).map List.asString

/-- The characters of the keyword `lambda`. -/
def lambdaChars : List Char := ['l', 'a', 'm', 'b', 'd', 'a']

/-- Python `func_str.strip().startswith("lambda")` (trailing whitespace
cannot affect a prefix test, so stripping the front suffices). -/
def pyStartsWithLambda (s : String) : Bool :=
  lambdaChars.isPrefixOf (s.toList.dropWhile Char.isWhitespace)

/-- Python `".".join(parts)`. -/
def joinDot : List String → String
  | [] => ""
  | [s] => s
  | s :: rest => s ++ "." ++ joinDot rest

/-- `Runtime._resolve_func`: lambda text is evaluated; a single bare name
is looked up in `globals()` (`.get`, so absence yields `None`, not an
error); a dotted path imports the module and fetches the symbol, either
of which may raise. -/
def resolve_func (env : Env) (s : String) : Except PyErr (Option Fn) :=
  if pyStartsWithLambda s then
    (env.evalLambda s).map some
  else
    match pySplitDot s with
    | [_] => .ok (env.registry s)
    | parts =>
      (env.importSym (joinDot parts.dropLast) (parts.getLast!)).map some

/-- `ctx[node_id] = result`: keyed overwrite keeping insertion position,
append when the key is new (Python dict assignment). -/
def ctxSet (ctx : Ctx) (k : String) (v : Value) : Ctx :=
  match ctx with
  | [] => [(k, v)]
  | p :: ps => if p.1 = k then (k, v) :: ps else p :: ctxSet ps k v

/-- `ctx.get(k)` / `ctx[k]` lookup. -/
def ctxLookup (ctx : Ctx) (k : String) : Option Value :=
  match ctx with
  | [] => none
  | p :: ps => if p.1 = k then some p.2 else ctxLookup ps k

/-- One node's worth of `Runtime.run` body: take the `func` attribute,
resolve a string reference, then `_execute` (None is a no-op returning
None; a callable is invoked on the whole context). -/
def execNode (env : Env) (node : Node) (ctx : Ctx) : Except PyErr Value :=
  match node.func with
  | .noneF => .ok .vNone
  | .fnF f => f ctx
  | .strF s =>
    match resolve_func env s with
    | .error e => .error e
    | .ok none => .ok .vNone
    | .ok (some f) => f ctx

/-- The loop of `Runtime.run` over the compiled order.  An uncaught
exception aborts the loop; the error is paired with the context as
mutated so far, because the context object is shared with the caller
when a non-empty seed dict was passed in. -/
def runFrom (env : Env) (g : Graph) : List String → Ctx → Except (PyErr × Ctx) Ctx
  | [], ctx => .ok ctx
  | nid :: rest, ctx =>
    match nodeLookup g nid with
    | none => .error (.keyError nid, ctx)
    | some node =>
      match execNode env node ctx with
      | .error e => .error (e, ctx)
      | .ok r => runFrom env g rest (ctxSet ctx nid r)

/-- `Runtime.run(ctx)`: value returned to (or exception seen by) the
caller.  `ctx = ctx or {}` replaces a falsy (empty/absent) seed by a
fresh dict and otherwise aliases the caller's dict, which does not
change the computed value. -/
def run (env : Env) (g : Graph) (order : List String) (seed : Ctx) :
    Except (PyErr × Ctx) Ctx :=
  runFrom env g order seed

/-- The state of the CALLER's seed dict object after `run` returns or
raises: an empty (falsy) seed is replaced by a fresh dict inside `run`
and never mutated, while a non-empty seed dict is aliased by `ctx` and
receives every write performed before the run ended. -/
def callerSeedAfter (env : Env) (g : Graph) (order : List String) (seed : Ctx) : Ctx :=
  if seed = ([] : Ctx) then []
  else
    match runFrom env g order seed with
    | .ok c => c
    | .error (_, c) => c

/-! ### Reachability (specification-side notion used to state claims) -/

/-- `Reaches adj a b`: `b` is reachable from `a` following adjacency
successors. -/
inductive Reaches (adj : Adj) : String → String → Prop
  | refl (a : String) : Reaches adj a a
  | step {a b c : String} : b ∈ adjGet adj a → Reaches adj b c → Reaches adj a c

/-! ### Concrete material used by witnesses and counterexamples -/

/-- An environment with an empty registry, failing imports and failing
lambda evaluation. -/
def envEmpty : Env :=
  ⟨fun _ => none,
   fun m f => .error (.importError (m ++ "." ++ f)),
   fun s => .error (.valueError s)⟩

/-- Placeholder graph for `graphOf`. -/
def defaultGraph : Graph := ⟨[], [], [], []⟩

/-- The graph produced by a successful construction (placeholder when
construction failed). -/
def graphOf (nodes : List Node) (edges : List Edge) : Graph :=
  (mkGraph nodes edges).toOption.getD defaultGraph

/-! ### Context and run lemmas -/

theorem ctxLookup_ctxSet_self (ctx : Ctx) (k : String) (v : Value) :
    ctxLookup (ctxSet ctx k v) k = some v := by
  induction ctx with
  | nil => simp [ctxSet, ctxLookup]
  | cons p ps ih =>
    by_cases h : p.1 = k
    · simp [ctxSet, ctxLookup, h]
    · simpa [ctxSet, ctxLookup, h] using ih

theorem ctxLookup_ctxSet_other (ctx : Ctx) (k k' : String) (v : Value)
    (h : k' ≠ k) : ctxLookup (ctxSet ctx k v) k' = ctxLookup ctx k' := by
  induction ctx with
  | nil => simp [ctxSet, ctxLookup, Ne.symm h]
  | cons p ps ih =>
    by_cases hp : p.1 = k
    · simp [ctxSet, ctxLookup, hp, Ne.symm h]
    · by_cases hp' : p.1 = k'
      · simp [ctxSet, ctxLookup, hp, hp', h]
      · simpa [ctxSet, ctxLookup, hp, hp'] using ih

/-- Splitting a run at any point: the tail runs from the context the
prefix produced, and a prefix failure is the whole run's failure. -/
theorem runFrom_append (env : Env) (g : Graph) (l₁ l₂ : List String) (ctx : Ctx) :
    runFrom env g (l₁ ++ l₂) ctx =
      match runFrom env g l₁ ctx with
      | .ok c => runFrom env g l₂ c
      | .error e => .error e := by
  induction l₁ generalizing ctx with
  | nil => simp [runFrom]
  | cons n ns ih =>
    cases hn : nodeLookup g n with
    | none => simp [runFrom, hn]
    | some node =>
      cases he : execNode env node ctx with
      | error e => simp [runFrom, hn, he]
      | ok r => simp [runFrom, hn, he, ih]

/-- A successful run leaves keys outside the executed order untouched. -/
theorem runFrom_untouched (env : Env) (g : Graph) (l : List String)
    (ctx c' : Ctx) (k : String) (h : runFrom env g l ctx = .ok c')
    (hk : k ∉ l) : ctxLookup c' k = ctxLookup ctx k := by
  induction l generalizing ctx with
  | nil => simp [runFrom] at h; simp [h]
  | cons n ns ih =>
    cases hn : nodeLookup g n with
    | none => simp [runFrom, hn] at h
    | some node =>
      cases he : execNode env node ctx with
      | error e => simp [runFrom, hn, he] at h
      | ok r =>
        simp only [runFrom, hn, he] at h
        have hkn : k ∉ ns := fun hx => hk (List.mem_cons_of_mem _ hx)
        have := ih (ctxSet ctx n r) h hkn
        rw [this, ctxLookup_ctxSet_other]
        intro hkn'
        exact hk (hkn' ▸ List.mem_cons_self n ns)

/-- A successful run stores a result under every executed node id. -/
theorem runFrom_covered (env : Env) (g : Graph) (l : List String)
    (ctx c' : Ctx) (k : String) (h : runFrom env g l ctx = .ok c')
    (hk : k ∈ l) : ∃ v, ctxLookup c' k = some v := by
  induction l generalizing ctx with
  | nil => simp at hk
  | cons n ns ih =>
    cases hn : nodeLookup g n with
    | none => simp [runFrom, hn] at h
    | some node =>
      cases he : execNode env node ctx with
      | error e => simp [runFrom, hn, he] at h
      | ok r =>
        simp only [runFrom, hn, he] at h
        by_cases hkns : k ∈ ns
        · exact ih (ctxSet ctx n r) h hkns
        · have hkn : k = n := by
            rcases List.mem_cons.mp hk with h1 | h1
            · exact h1
            · exact absurd h1 hkns
          subst hkn
          have := runFrom_untouched env g ns (ctxSet ctx k r) c' k h hkns
          exact ⟨r, by rw [this, ctxLookup_ctxSet_self]⟩

/-! ### Graph construction lemmas -/

theorem mkGraph_ok_parts (nodes : List Node) (edges : List Edge) (g : Graph)
    (h : mkGraph nodes edges = .ok g) :
    g.keys = dedupKeys (nodes.map Node.id) ∧ g.nodes = nodes ∧ g.edges = edges ∧
    buildAdjacency (dedupKeys (nodes.map Node.id)) edges
      ((dedupKeys (nodes.map Node.id)).map (fun k => (k, []))) = .ok g.adj := by
  unfold mkGraph at h
  cases hb : buildAdjacency (dedupKeys (nodes.map Node.id)) edges
      ((dedupKeys (nodes.map Node.id)).map (fun k => (k, []))) with
  | error e => rw [hb] at h; simp at h
  | ok adj =>
    rw [hb] at h
    simp only [Except.ok.injEq] at h
    subst h
    exact ⟨rfl, rfl, rfl, rfl⟩

theorem buildAdjacency_ok (keys : List String) (edges : List Edge)
    (adj : Adj)
    (h : ∀ e ∈ edges,
      memKeys keys (edgeEndpoints e).1 && memKeys keys (edgeEndpoints e).2) :
    ∃ a', buildAdjacency keys edges adj = .ok a' := by
  induction edges generalizing adj with
  | nil => exact ⟨adj, rfl⟩
  | cons e es ih =>
    have he := h e (List.mem_cons_self e es)
    have hes : ∀ e' ∈ es,
        memKeys keys (edgeEndpoints e').1 && memKeys keys (edgeEndpoints e').2 :=
      fun e' h' => h e' (List.mem_cons_of_mem _ h')
    simp only [buildAdjacency, he, if_true]
    exact ih _ hes

theorem buildAdjacency_first_bad (keys : List String) (edges : List Edge)
    (adj : Adj) (e₀ : Edge)
    (h : edges.find? (fun e =>
        !(memKeys keys (edgeEndpoints e).1 && memKeys keys (edgeEndpoints e).2))
      = some e₀) :
    buildAdjacency keys edges adj =
      .error (.valueError (edgeErrMsg (edgeEndpoints e₀).1 (edgeEndpoints e₀).2)) := by
  induction edges generalizing adj with
  | nil => simp at h
  | cons e es ih =>
    cases hbad :
        (!(memKeys keys (edgeEndpoints e).1 && memKeys keys (edgeEndpoints e).2)) with
    | true =>
      rw [List.find?_cons, hbad] at h
      obtain rfl : e₀ = e := by simpa using h.symm
      have hc : (memKeys keys (edgeEndpoints e₀).1 &&
          memKeys keys (edgeEndpoints e₀).2) = false := by
        cases hmm : (memKeys keys (edgeEndpoints e₀).1 &&
            memKeys keys (edgeEndpoints e₀).2) with
        | false => rfl
        | true => rw [hmm] at hbad; simp at hbad
      simp [buildAdjacency, hc]
    | false =>
      rw [List.find?_cons, hbad] at h
      simp only at h
      have hc : (memKeys keys (edgeEndpoints e).1 &&
          memKeys keys (edgeEndpoints e).2) = true := by
        cases hmm : (memKeys keys (edgeEndpoints e).1 &&
            memKeys keys (edgeEndpoints e).2) with
        | true => rfl
        | false => rw [hmm] at hbad; simp at hbad
      simp only [buildAdjacency, hc, if_true]
      exact ih _ h

/-! ### Claim theorems: graph construction and compilation -/

def diamondNodes : List Node :=
  [⟨"start", .noneF⟩, ⟨"left", .noneF⟩, ⟨"right", .noneF⟩, ⟨"join", .noneF⟩]

def diamondEdges : List Edge :=
  [⟨some "start", some "left", none, none⟩,
   ⟨some "start", some "right", none, none⟩,
   ⟨some "left", some "join", none, none⟩,
   ⟨some "right", some "join", none, none⟩]

/-- C1: for the diamond graph with nodes `[start, left, right, join]` and
edges start→left, start→right, left→join, right→join, `compile` returns
exactly `[start, right, left, join]`: the shared visited set lets the
left branch claim `join` during its postorder, the right branch's
descent into `join` is skipped, and the single final reversal places
`right` before `left`. -/
theorem C1_diamond_compile :
    (mkGraph diamondNodes diamondEdges).toOption.map compile =
      some ["start", "right", "left", "join"] := by
  rfl

/-- C4: `get_start_nodes` returns exactly the node ids that are not the
resolved target of any edge; it is a sublist of the declared node key
list (so it lists them in declaration order); and a fully isolated node
(named by no edge endpoint at all) is always among the start nodes. -/
theorem C4_start_nodes (nodes : List Node) (edges : List Edge) (g : Graph)
    (h : mkGraph nodes edges = .ok g) :
    (∀ nid, nid ∈ get_start_nodes g ↔
        nid ∈ g.keys ∧ ∀ e ∈ edges, edgeTarget e ≠ some nid) ∧
    List.Sublist (get_start_nodes g) g.keys ∧
    (∀ nid ∈ g.keys,
        (∀ e ∈ edges,
          (edgeEndpoints e).1 ≠ some nid ∧ (edgeEndpoints e).2 ≠ some nid) →
        nid ∈ get_start_nodes g) := by
  obtain ⟨hk, hn, he, -⟩ := mkGraph_ok_parts nodes edges g h
  refine ⟨?_, ?_, ?_⟩
  · intro nid
    simp [get_start_nodes, List.mem_filter, he]
  · exact List.filter_sublist _
  · intro nid hmem hiso
    simp only [get_start_nodes, List.mem_filter, he]
    refine ⟨hmem, ?_⟩
    simp only [Bool.not_eq_true', List.any_eq_false]
    intro e hee
    have h2 := (hiso e hee).2
    simpa [edgeTarget, edgeEndpoints, beq_eq_false_iff_ne] using h2

def c4Nodes : List Node := [⟨"A", .noneF⟩, ⟨"B", .noneF⟩, ⟨"iso", .noneF⟩]

def c4Edges : List Edge := [⟨some "A", some "B", none, none⟩]

def c4g : Graph := graphOf c4Nodes c4Edges

theorem C4_start_nodes_witness :
    (∀ nid, nid ∈ get_start_nodes c4g ↔
        nid ∈ c4g.keys ∧ ∀ e ∈ c4Edges, edgeTarget e ≠ some nid) ∧
    List.Sublist (get_start_nodes c4g) c4g.keys ∧
    (∀ nid ∈ c4g.keys,
        (∀ e ∈ c4Edges,
          (edgeEndpoints e).1 ≠ some nid ∧ (edgeEndpoints e).2 ≠ some nid) →
        nid ∈ get_start_nodes c4g) :=
  C4_start_nodes c4Nodes c4Edges c4g (by rfl)

/-- C5: constructing a Graph fails at construction time, with the
`ValueError` naming the offending edge's resolved endpoints, exactly
when some edge references an endpoint absent from the node-id set (the
error is raised on the first such edge, and no `Graph` — hence no
adjacency — is produced); when every edge's resolved endpoints exist,
construction succeeds. -/
theorem C5_unknown_edge_endpoint (nodes : List Node) (edges : List Edge) :
    (∀ e₀, edges.find? (fun e =>
        !(memKeys (dedupKeys (nodes.map Node.id)) (edgeEndpoints e).1 &&
          memKeys (dedupKeys (nodes.map Node.id)) (edgeEndpoints e).2)) = some e₀ →
      mkGraph nodes edges =
        .error (.valueError (edgeErrMsg (edgeEndpoints e₀).1 (edgeEndpoints e₀).2)) ∧
      ∀ g, mkGraph nodes edges ≠ .ok g) ∧
    ((∀ e ∈ edges,
        memKeys (dedupKeys (nodes.map Node.id)) (edgeEndpoints e).1 &&
        memKeys (dedupKeys (nodes.map Node.id)) (edgeEndpoints e).2) →
      ∃ g, mkGraph nodes edges = .ok g) := by
  constructor
  · intro e₀ hfind
    have := buildAdjacency_first_bad (dedupKeys (nodes.map Node.id)) edges
      ((dedupKeys (nodes.map Node.id)).map (fun k => (k, []))) e₀ hfind
    constructor
    · unfold mkGraph
      rw [this]
    · intro g hg
      unfold mkGraph at hg
      rw [this] at hg
      exact absurd hg (by simp)
  · intro hall
    obtain ⟨a', ha⟩ := buildAdjacency_ok (dedupKeys (nodes.map Node.id)) edges
      ((dedupKeys (nodes.map Node.id)).map (fun k => (k, []))) hall
    refine ⟨⟨dedupKeys (nodes.map Node.id), nodes, edges, a'⟩, ?_⟩
    unfold mkGraph
    rw [ha]

def c5BadEdges : List Edge := [⟨some "A", some "C", none, none⟩]

theorem C5_unknown_edge_endpoint_witness :
    (mkGraph c4Nodes c5BadEdges =
        .error (.valueError (edgeErrMsg (some "A") (some "C"))) ∧
      ∀ g, mkGraph c4Nodes c5BadEdges ≠ .ok g) ∧
    (∃ g, mkGraph c4Nodes c4Edges = .ok g) :=
  ⟨(C5_unknown_edge_endpoint c4Nodes c5BadEdges).1 ⟨some "A", some "C", none, none⟩ (by rfl),
   (C5_unknown_edge_endpoint c4Nodes c4Edges).2 (by decide)⟩

/-! ### C8: endpoint naming conventions -/

theorem buildAdjacency_congr (keys : List String) {es₁ es₂ : List Edge}
    (h : List.Forall₂ (fun a b => edgeEndpoints a = edgeEndpoints b) es₁ es₂) :
    ∀ adj, buildAdjacency keys es₁ adj = buildAdjacency keys es₂ adj := by
  induction h with
  | nil => intro adj; rfl
  | cons hab htl ih =>
    intro adj
    simp only [buildAdjacency, hab]
    split
    · exact ih _
    · rfl

theorem any_eq_of_forall₂ {α β : Type} (p : α → Bool) (q : β → Bool)
    {l₁ : List α} {l₂ : List β}
    (h : List.Forall₂ (fun a b => p a = q b) l₁ l₂) :
    l₁.any p = l₂.any q := by
  induction h with
  | nil => rfl
  | cons hab htl ih => simp only [List.any_cons, hab, ih]

theorem get_start_nodes_congr (g₁ g₂ : Graph) (hk : g₁.keys = g₂.keys)
    (h : List.Forall₂ (fun a b => edgeTarget a = edgeTarget b) g₁.edges g₂.edges) :
    get_start_nodes g₁ = get_start_nodes g₂ := by
  unfold get_start_nodes
  rw [hk]
  congr 1
  funext nid
  have h2 : List.Forall₂
      (fun a b => (edgeTarget a == some nid) = (edgeTarget b == some nid))
      g₁.edges g₂.edges :=
    h.imp (fun a b hab => by rw [hab])
  rw [any_eq_of_forall₂ _ _ h2]

/-- An edge given in the `source`/`target` convention. -/
def srcTgtEdge (p : String × String) : Edge := ⟨some p.1, some p.2, none, none⟩

/-- The same edge given in the `from`/`to` convention. -/
def fromToEdge (p : String × String) : Edge := ⟨none, none, some p.1, some p.2⟩

/-- C8 (amended: endpoint ids must be non-empty — Python's `or` treats
the empty string as falsy, so an empty `source` silently falls through
to the `from` attribute): for every node list and every list of edges
with non-empty endpoint ids, expressing the edges as `from`/`to`
produces the same construction success/failure, the same error, the
same adjacency and the same `get_start_nodes` result as expressing them
as `source`/`target`; and an edge carrying both conventions at once
resolves to the (source, target) pair. -/
theorem C8_endpoint_conventions (nodes : List Node) (ps : List (String × String))
    (hne : ∀ p ∈ ps, p.1 ≠ "" ∧ p.2 ≠ "") :
    ((mkGraph nodes (ps.map srcTgtEdge)).toOption.isSome =
      (mkGraph nodes (ps.map fromToEdge)).toOption.isSome) ∧
    (∀ er, mkGraph nodes (ps.map srcTgtEdge) = .error er ↔
        mkGraph nodes (ps.map fromToEdge) = .error er) ∧
    (∀ g₁ g₂, mkGraph nodes (ps.map srcTgtEdge) = .ok g₁ →
        mkGraph nodes (ps.map fromToEdge) = .ok g₂ →
        g₁.adj = g₂.adj ∧ g₁.keys = g₂.keys ∧
        get_start_nodes g₁ = get_start_nodes g₂) ∧
    (∀ p ∈ ps, ∀ q r : Option String,
        edgeEndpoints ⟨some p.1, some p.2, q, r⟩ = (some p.1, some p.2)) := by
  have hend : ∀ p ∈ ps,
      edgeEndpoints (srcTgtEdge p) = (some p.1, some p.2) ∧
      edgeEndpoints (fromToEdge p) = (some p.1, some p.2) := by
    intro p hp
    obtain ⟨h1, h2⟩ := hne p hp
    constructor
    · simp [srcTgtEdge, edgeEndpoints, pyOr, h1, h2]
    · simp [fromToEdge, edgeEndpoints, pyOr]
  have hf : List.Forall₂ (fun a b => edgeEndpoints a = edgeEndpoints b)
      (ps.map srcTgtEdge) (ps.map fromToEdge) := by
    clear hne
    induction ps with
    | nil => exact List.Forall₂.nil
    | cons p pt ih =>
      refine List.Forall₂.cons ?_ (ih ?_)
      · rw [(hend p (List.mem_cons_self p pt)).1,
          (hend p (List.mem_cons_self p pt)).2]
      · intro p' hp'
        exact hend p' (List.mem_cons_of_mem _ hp')
  have hb := buildAdjacency_congr (dedupKeys (nodes.map Node.id)) hf
      ((dedupKeys (nodes.map Node.id)).map (fun k => (k, [])))
  have htgt : List.Forall₂ (fun a b => edgeTarget a = edgeTarget b)
      (ps.map srcTgtEdge) (ps.map fromToEdge) :=
    hf.imp (fun a b hab => congrArg Prod.snd hab)
  refine ⟨?_, ?_, ?_, ?_⟩
  · unfold mkGraph
    rw [hb]
    cases buildAdjacency (dedupKeys (nodes.map Node.id)) (ps.map fromToEdge)
        ((dedupKeys (nodes.map Node.id)).map (fun k => (k, []))) <;> rfl
  · intro er
    unfold mkGraph
    rw [hb]
    cases buildAdjacency (dedupKeys (nodes.map Node.id)) (ps.map fromToEdge)
        ((dedupKeys (nodes.map Node.id)).map (fun k => (k, []))) <;> simp
  · intro g₁ g₂ h1 h2
    unfold mkGraph at h1 h2
    rw [hb] at h1
    cases hres : buildAdjacency (dedupKeys (nodes.map Node.id)) (ps.map fromToEdge)
        ((dedupKeys (nodes.map Node.id)).map (fun k => (k, []))) with
    | error er => rw [hres] at h1; simp at h1
    | ok adj =>
      rw [hres] at h1 h2
      simp only [Except.ok.injEq] at h1 h2
      subst h1; subst h2
      refine ⟨rfl, rfl, ?_⟩
      exact get_start_nodes_congr _ _ rfl htgt
  · intro p hp q r
    obtain ⟨h1, h2⟩ := hne p hp
    simp [edgeEndpoints, pyOr, h1, h2]

theorem C8_endpoint_conventions_witness :
    ((mkGraph c4Nodes ([("A", "B")].map srcTgtEdge)).toOption.isSome =
      (mkGraph c4Nodes ([("A", "B")].map fromToEdge)).toOption.isSome) ∧
    (∀ er, mkGraph c4Nodes ([("A", "B")].map srcTgtEdge) = .error er ↔
        mkGraph c4Nodes ([("A", "B")].map fromToEdge) = .error er) ∧
    (∀ g₁ g₂, mkGraph c4Nodes ([("A", "B")].map srcTgtEdge) = .ok g₁ →
        mkGraph c4Nodes ([("A", "B")].map fromToEdge) = .ok g₂ →
        g₁.adj = g₂.adj ∧ g₁.keys = g₂.keys ∧
        get_start_nodes g₁ = get_start_nodes g₂) ∧
    (∀ p ∈ [("A", "B")], ∀ q r : Option String,
        edgeEndpoints ⟨some p.1, some p.2, q, r⟩ = (some p.1, some p.2)) :=
  C8_endpoint_conventions c4Nodes [("A", "B")] (by decide)

def c8Nodes : List Node := [⟨"", .noneF⟩, ⟨"B", .noneF⟩]

/-- C8 counterexample: with a node whose id is the empty string, the edge
`source="", target="B"` fails construction (the falsy `""` falls through
to the absent `from` attribute, leaving the source `None`), while the
same endpoints written `from="", to="B"` construct successfully — the
two conventions do not always yield the same success/failure. -/
theorem C8_counterexample :
    (mkGraph c8Nodes [srcTgtEdge ("", "B")]).toOption.isSome = false ∧
    (mkGraph c8Nodes [fromToEdge ("", "B")]).toOption.isSome = true := by
  decide

/-! ### C9/C10: function reference resolution -/

theorem resolve_func_empty (env : Env) :
    resolve_func env "" = .ok (env.registry "") := by
  rfl

/-- C9: a node whose `func` attribute is absent (None) or the empty
string does not fail: it executes as a no-op, `None` (`vNone`) is stored
as its result, and the run continues with the rest of the order.  (The
empty string resolves through the bare-name branch of `_resolve_func`,
and the `globals()` registry — whose keys are Python identifiers — has
no entry for `""`.) -/
theorem C9_missing_or_empty_func (env : Env) (henv : env.registry "" = none)
    (ctx : Ctx) :
    (∀ i, execNode env ⟨i, .noneF⟩ ctx = .ok .vNone) ∧
    (∀ i, execNode env ⟨i, .strF ""⟩ ctx = .ok .vNone) ∧
    (∀ g n rest node, nodeLookup g n = some node →
      node.func = .noneF ∨ node.func = .strF "" →
      runFrom env g (n :: rest) ctx = runFrom env g rest (ctxSet ctx n .vNone)) := by
  have hexec : ∀ i, execNode env ⟨i, .strF ""⟩ ctx = .ok .vNone := by
    intro i
    simp only [execNode, resolve_func_empty, henv]
  refine ⟨fun i => rfl, hexec, ?_⟩
  intro g n rest node hn hfunc
  obtain ⟨nodeid, f⟩ := node
  rcases hfunc with hf | hf <;>
    simp only at hf <;> subst hf <;>
    simp only [runFrom, hn, hexec, execNode, resolve_func_empty, henv]

theorem C9_missing_or_empty_func_witness :
    (∀ i, execNode envEmpty ⟨i, .noneF⟩ [] = .ok .vNone) ∧
    (∀ i, execNode envEmpty ⟨i, .strF ""⟩ [] = .ok .vNone) ∧
    (∀ g n rest node, nodeLookup g n = some node →
      node.func = .noneF ∨ node.func = .strF "" →
      runFrom envEmpty g (n :: rest) [] = runFrom envEmpty g rest (ctxSet [] n .vNone)) :=
  C9_missing_or_empty_func envEmpty rfl []

/-- C10: a bare-name function reference (no dot) absent from the
process-wide registry does not raise: `globals().get` yields `None`,
`None` is stored as the node's result and the run continues with the
next node; by contrast a dotted-path reference whose import or
attribute lookup fails makes the run fail. -/
theorem C10_bare_name_vs_dotted (env : Env) (ctx : Ctx) :
    (∀ s x, pyStartsWithLambda s = false → pySplitDot s = [x] →
      env.registry s = none →
      resolve_func env s = .ok none ∧
      ∀ i, execNode env ⟨i, .strF s⟩ ctx = .ok .vNone) ∧
    (∀ g n rest node s x, nodeLookup g n = some node →
      node.func = .strF s → pyStartsWithLambda s = false →
      pySplitDot s = [x] → env.registry s = none →
      runFrom env g (n :: rest) ctx = runFrom env g rest (ctxSet ctx n .vNone)) ∧
    (∀ s parts e, pyStartsWithLambda s = false → pySplitDot s = parts →
      2 ≤ parts.length →
      env.importSym (joinDot parts.dropLast) parts.getLast! = .error e →
      ∀ i, execNode env ⟨i, .strF s⟩ ctx = .error e) ∧
    (∀ g n rest node e, nodeLookup g n = some node →
      execNode env node ctx = .error e →
      runFrom env g (n :: rest) ctx = .error (e, ctx)) := by
  have hbare : ∀ s x, pyStartsWithLambda s = false → pySplitDot s = [x] →
      env.registry s = none → resolve_func env s = .ok none := by
    intro s x hlam hsplit hreg
    unfold resolve_func
    rw [hlam, hsplit]
    simp [hreg]
  have hbareExec : ∀ s x, pyStartsWithLambda s = false → pySplitDot s = [x] →
      env.registry s = none →
      ∀ i, execNode env ⟨i, .strF s⟩ ctx = .ok .vNone := by
    intro s x hlam hsplit hreg i
    simp only [execNode, hbare s x hlam hsplit hreg]
  have hdotted : ∀ s parts e, pyStartsWithLambda s = false →
      pySplitDot s = parts → 2 ≤ parts.length →
      env.importSym (joinDot parts.dropLast) parts.getLast! = .error e →
      resolve_func env s = .error e := by
    intro s parts e hlam hsplit hlen himp
    unfold resolve_func
    rw [hlam, hsplit]
    cases parts with
    | nil => simp at hlen
    | cons a tl =>
      cases tl with
      | nil => simp at hlen
      | cons b t =>
        show Except.map some (env.importSym (joinDot ((a :: b :: t).dropLast))
            ((a :: b :: t).getLast!)) = Except.error e
        rw [himp]
        rfl
  refine ⟨?_, ?_, ?_, ?_⟩
  · intro s x hlam hsplit hreg
    exact ⟨hbare s x hlam hsplit hreg, hbareExec s x hlam hsplit hreg⟩
  · intro g n rest node s x hn hf hlam hsplit hreg
    obtain ⟨nodeid, fn⟩ := node
    simp only at hf
    subst hf
    simp only [runFrom, hn, hbareExec s x hlam hsplit hreg]
  · intro s parts e hlam hsplit hlen himp i
    simp only [execNode, hdotted s parts e hlam hsplit hlen himp]
  · intro g n rest node e hn hexec
    simp only [runFrom, hn, hexec]

theorem C10_bare_name_vs_dotted_witness :
    (resolve_func envEmpty "missing" = .ok none ∧
      ∀ i, execNode envEmpty ⟨i, .strF "missing"⟩ [] = .ok .vNone) ∧
    (∀ i, execNode envEmpty ⟨i, .strF "no.such"⟩ [] =
      .error (.importError "no.such")) := by
  constructor
  · exact (C10_bare_name_vs_dotted envEmpty []).1 "missing" "missing"
      (by decide) (by decide) rfl
  · exact (C10_bare_name_vs_dotted envEmpty []).2.2.1 "no.such" ["no", "such"]
      (.importError "no.such") (by decide) (by decide) (by decide) (by rfl)

/-! ### C3/C6: fail-fast and seed mutation -/

/-- If the prefix succeeds and the next node's execution raises `e`, the
whole run surfaces exactly `(e, context-so-far)` regardless of what
comes after the failing node. -/
theorem runFrom_halts (env : Env) (g : Graph) (seed c : Ctx)
    (pre : List String) (bad : String) (node : Node) (e : PyErr)
    (hpre : runFrom env g pre seed = .ok c)
    (hnode : nodeLookup g bad = some node)
    (hfail : execNode env node c = .error e) :
    ∀ tail, runFrom env g (pre ++ bad :: tail) seed = .error (e, c) := by
  intro tail
  rw [runFrom_append, hpre]
  simp only [runFrom, hnode, hfail]

def nodeA1 : Node := ⟨"A", .fnF (fun _ => .ok (.vInt 1))⟩

def nodeBboom : Node := ⟨"B", .fnF (fun _ => .error (.userError "boom"))⟩

def nodeCboom : Node := ⟨"C", .fnF (fun _ => .error (.userError "boom"))⟩

def c3g : Graph := graphOf [nodeA1, nodeBboom] [srcTgtEdge ("A", "B")]

def gBboom : Graph := graphOf [nodeBboom] []

def gCboom : Graph := graphOf [nodeCboom] []

/-- C3 (amended: the halting part holds, the wrapping part does not —
if the function invoked for some node raises, the run halts immediately
and no node after the failing one is ever invoked (the outcome does not
even depend on the rest of the order), but the surfaced error is the
function's exception unchanged; `Runtime.run` wraps nothing and the
error carries no failing-node id). -/
theorem C3_fail_fast (env : Env) (g : Graph) (seed c : Ctx)
    (pre : List String) (bad : String) (node : Node) (e : PyErr)
    (hpre : runFrom env g pre seed = .ok c)
    (hnode : nodeLookup g bad = some node)
    (hfail : execNode env node c = .error e) :
    ∀ tail, run env g (pre ++ bad :: tail) seed = .error (e, c) :=
  runFrom_halts env g seed c pre bad node e hpre hnode hfail

theorem C3_fail_fast_witness :
    run envEmpty c3g (["A"] ++ "B" :: ["Z"]) [] =
      .error (.userError "boom", [("A", .vInt 1)]) ∧
    run envEmpty c3g (["A"] ++ "B" :: []) [] =
      .error (.userError "boom", [("A", .vInt 1)]) :=
  ⟨C3_fail_fast envEmpty c3g [] [("A", .vInt 1)] ["A"] "B" nodeBboom
      (.userError "boom") rfl rfl rfl ["Z"],
   C3_fail_fast envEmpty c3g [] [("A", .vInt 1)] ["A"] "B" nodeBboom
      (.userError "boom") rfl rfl rfl []⟩

/-- C3 counterexample: two single-node graphs whose only nodes (ids "B"
and "C") raise identical exceptions surface identical errors from their
compiled runs — the surfaced error is the raw exception and cannot
identify the failing node's id, contradicting the claim that the error
is wrapped so as to identify it. -/
theorem C3_counterexample :
    compile gBboom = ["B"] ∧ compile gCboom = ["C"] ∧
    run envEmpty gBboom (compile gBboom) [] = .error (.userError "boom", []) ∧
    run envEmpty gCboom (compile gCboom) [] = .error (.userError "boom", []) :=
  ⟨rfl, rfl, rfl, rfl⟩

/-- C6 (amended: only a falsy — empty/absent — seed is protected.
`ctx = ctx or {}` replaces an empty seed by a fresh dict, so nothing is
observable after a failure; but a non-empty caller-supplied seed dict is
aliased, every executed node's result is written into it in place, and
those results remain observable in the caller's dict after the
failure). -/
theorem C6_seed_mutation (env : Env) (g : Graph) :
    (∀ order, callerSeedAfter env g order [] = []) ∧
    (∀ pre bad tail seed c node e, seed ≠ ([] : Ctx) →
      runFrom env g pre seed = .ok c →
      nodeLookup g bad = some node →
      execNode env node c = .error e →
      callerSeedAfter env g (pre ++ bad :: tail) seed = c ∧
      ∀ k ∈ pre, ∃ v, ctxLookup c k = some v) := by
  constructor
  · intro order
    simp [callerSeedAfter]
  · intro pre bad tail seed c node e hne hpre hnode hfail
    have hrun := runFrom_halts env g seed c pre bad node e hpre hnode hfail tail
    constructor
    · simp only [callerSeedAfter, hrun, if_neg hne]
    · intro k hk
      exact runFrom_covered env g pre seed c k hpre hk

theorem C6_seed_mutation_witness :
    callerSeedAfter envEmpty c3g (["A"] ++ "B" :: []) [("seed0", .vInt 0)] =
      [("seed0", .vInt 0), ("A", .vInt 1)] ∧
    ∀ k ∈ ["A"], ∃ v,
      ctxLookup [("seed0", .vInt 0), ("A", .vInt 1)] k = some v :=
  (C6_seed_mutation envEmpty c3g).2 ["A"] "B" [] [("seed0", .vInt 0)]
    [("seed0", .vInt 0), ("A", .vInt 1)] nodeBboom (.userError "boom")
    (by simp) rfl rfl rfl

/-- C6 counterexample: a failing run started from the non-empty seed
`{"seed0": 0}` over the compiled order of the A→B graph (A returns 1, B
raises) leaves `{"seed0": 0, "A": 1}` observable in the caller's seed
dict: the context accumulated before the failing node is NOT discarded. -/
theorem C6_counterexample :
    compile c3g = ["A", "B"] ∧
    run envEmpty c3g (compile c3g) [("seed0", .vInt 0)] =
      .error (.userError "boom", [("seed0", .vInt 0), ("A", .vInt 1)]) ∧
    callerSeedAfter envEmpty c3g (compile c3g) [("seed0", .vInt 0)] =
      [("seed0", .vInt 0), ("A", .vInt 1)] ∧
    ctxLookup (callerSeedAfter envEmpty c3g (compile c3g) [("seed0", .vInt 0)])
      "A" = some (.vInt 1) :=
  ⟨rfl, rfl, rfl, rfl⟩

/-! ### DFS structural lemmas (for C7 and C2) -/

/-- The successor fold inside `dfs`, as a named function. -/
def dfsList (adj : Adj) (fuel : Nat) (l : List String) (st : St) : St :=
  l.foldl (fun s b => dfsNode adj fuel b s) st

theorem dfsList_nil (adj : Adj) (fuel : Nat) (st : St) :
    dfsList adj fuel [] st = st := rfl

theorem dfsList_cons (adj : Adj) (fuel : Nat) (b : String) (l : List String)
    (st : St) :
    dfsList adj fuel (b :: l) st = dfsList adj fuel l (dfsNode adj fuel b st) := rfl

theorem dfsNode_zero (adj : Adj) (nid : String) (st : St) :
    dfsNode adj 0 nid st = st := rfl

theorem dfsNode_succ (adj : Adj) (fuel : Nat) (nid : String) (st : St) :
    dfsNode adj (fuel + 1) nid st =
      if st.1.contains nid then st
      else
        ((dfsList adj fuel (adjGet adj nid) (st.1 ++ [nid], st.2)).1,
         (dfsList adj fuel (adjGet adj nid) (st.1 ++ [nid], st.2)).2 ++ [nid]) := rfl

theorem dfsStarts_eq (adj : Adj) (fuel : Nat) (starts : List String) :
    dfsStarts adj fuel starts = dfsList adj fuel starts ([], []) := rfl

/-- Structural invariant of one `dfs` call: visited and the working
order list both grow by append; the two deltas have the same members,
are fresh with respect to the previous visited list, and are
duplicate-free. -/
def NodeMaster (adj : Adj) (fuel : Nat) : Prop :=
  ∀ nid st, ∃ dv dord,
    dfsNode adj fuel nid st = (st.1 ++ dv, st.2 ++ dord) ∧
    (∀ x, x ∈ dv ↔ x ∈ dord) ∧ (∀ x ∈ dv, x ∉ st.1) ∧
    dv.Nodup ∧ dord.Nodup

/-- The same invariant for the successor fold. -/
def ListMaster (adj : Adj) (fuel : Nat) : Prop :=
  ∀ l st, ∃ dv dord,
    dfsList adj fuel l st = (st.1 ++ dv, st.2 ++ dord) ∧
    (∀ x, x ∈ dv ↔ x ∈ dord) ∧ (∀ x ∈ dv, x ∉ st.1) ∧
    dv.Nodup ∧ dord.Nodup

theorem listMaster_of_nodeMaster (adj : Adj) (fuel : Nat)
    (h : NodeMaster adj fuel) : ListMaster adj fuel := by
  intro l
  induction l with
  | nil =>
    intro st
    exact ⟨[], [], by simp [dfsList_nil], by simp, by simp,
      List.nodup_nil, List.nodup_nil⟩
  | cons b bs ih =>
    intro st
    obtain ⟨dv₁, do₁, heq₁, hiff₁, hfr₁, hnd₁, hno₁⟩ := h b st
    obtain ⟨dv₂, do₂, heq₂, hiff₂, hfr₂, hnd₂, hno₂⟩ := ih (dfsNode adj fuel b st)
    rw [heq₁] at heq₂ hfr₂
    refine ⟨dv₁ ++ dv₂, do₁ ++ do₂, ?_, ?_, ?_, ?_, ?_⟩
    · rw [dfsList_cons, heq₁, heq₂]
      simp [List.append_assoc]
    · intro x
      simp only [List.mem_append]
      exact or_congr (hiff₁ x) (hiff₂ x)
    · intro x hx
      rcases List.mem_append.mp hx with h1 | h1
      · exact hfr₁ x h1
      · intro hxv
        exact hfr₂ x h1 (by simp [hxv])
    · refine hnd₁.append hnd₂ ?_
      intro a ha1 ha2
      exact hfr₂ a ha2 (by simp [ha1])
    · refine hno₁.append hno₂ ?_
      intro a ha1 ha2
      exact hfr₂ a ((hiff₂ a).mpr ha2) (by simp [(hiff₁ a).mpr ha1])

theorem nodeMaster_all (adj : Adj) : ∀ fuel, NodeMaster adj fuel := by
  intro fuel
  induction fuel with
  | zero =>
    intro nid st
    exact ⟨[], [], by simp [dfsNode_zero], by simp, by simp,
      List.nodup_nil, List.nodup_nil⟩
  | succ fuel ih =>
    intro nid st
    by_cases hv : st.1.contains nid = true
    · exact ⟨[], [], by rw [dfsNode_succ, if_pos hv]; simp, by simp, by simp,
        List.nodup_nil, List.nodup_nil⟩
    · have hnid : nid ∉ st.1 := by simpa using hv
      obtain ⟨dv₂, do₂, heq₂, hiff₂, hfr₂, hnd₂, hno₂⟩ :=
        listMaster_of_nodeMaster adj fuel ih (adjGet adj nid) (st.1 ++ [nid], st.2)
      refine ⟨[nid] ++ dv₂, do₂ ++ [nid], ?_, ?_, ?_, ?_, ?_⟩
      · rw [dfsNode_succ, if_neg hv, heq₂]
        simp [List.append_assoc]
      · intro x
        simp only [List.mem_append, List.mem_singleton]
        exact Iff.trans or_comm (or_congr (hiff₂ x) Iff.rfl)
      · intro x hx
        rcases List.mem_append.mp hx with h1 | h1
        · rw [List.mem_singleton] at h1
          exact h1 ▸ hnid
        · intro hxv
          exact hfr₂ x h1 (by simp [hxv])
      · refine (List.nodup_singleton nid).append hnd₂ ?_
        intro a ha1 ha2
        rw [List.mem_singleton] at ha1
        exact hfr₂ a ha2 (by simp [ha1])
      · refine hno₂.append (List.nodup_singleton nid) ?_
        intro a ha1 ha2
        rw [List.mem_singleton] at ha2
        subst ha2
        exact hfr₂ a ((hiff₂ a).mpr ha1) (by simp)

theorem dfsNode_mem_mono (adj : Adj) (fuel : Nat) (nid : String) (st : St) :
    ∀ x ∈ st.1, x ∈ (dfsNode adj fuel nid st).1 := by
  obtain ⟨dv, dord, heq, -, -, -, -⟩ := nodeMaster_all adj fuel nid st
  rw [heq]
  intro x hx
  exact List.mem_append_left _ hx

theorem dfsList_mem_mono (adj : Adj) (fuel : Nat) (l : List String) (st : St) :
    ∀ x ∈ st.1, x ∈ (dfsList adj fuel l st).1 := by
  obtain ⟨dv, dord, heq, -, -, -, -⟩ :=
    listMaster_of_nodeMaster adj fuel (nodeMaster_all adj fuel) l st
  rw [heq]
  intro x hx
  exact List.mem_append_left _ hx

/-- At the level of one complete `dfs` call from an empty state, a node
is in the working order list iff it is in the visited list. -/
theorem dfsList_mem_iff_of_empty (adj : Adj) (fuel : Nat) (l : List String) :
    ∀ x, x ∈ (dfsList adj fuel l ([], [])).2 ↔ x ∈ (dfsList adj fuel l ([], [])).1 := by
  obtain ⟨dv, dord, heq, hiff, -, -, -⟩ :=
    listMaster_of_nodeMaster adj fuel (nodeMaster_all adj fuel) l ([], [])
  rw [heq]
  intro x
  simp only [List.nil_append]
  exact (hiff x).symm

theorem dfsList_nodup_of_empty (adj : Adj) (fuel : Nat) (l : List String) :
    (dfsList adj fuel l ([], [])).2.Nodup := by
  obtain ⟨dv, dord, heq, -, -, -, hno⟩ :=
    listMaster_of_nodeMaster adj fuel (nodeMaster_all adj fuel) l ([], [])
  rw [heq]
  simpa using hno

/-- The compiled order never contains a node twice. -/
theorem compile_nodup (g : Graph) : (compile g).Nodup := by
  unfold compile compileFuel
  rw [dfsStarts_eq]
  exact List.nodup_reverse.mpr
    (dfsList_nodup_of_empty g.adj (g.adj.length + 1) (get_start_nodes g))

/-! ### DFS soundness: only reachable nodes are visited -/

/-- Soundness of one `dfs` call at a given fuel. -/
def NodeSound (adj : Adj) (fuel : Nat) : Prop :=
  ∀ nid st x, x ∈ (dfsNode adj fuel nid st).1 → x ∈ st.1 ∨ Reaches adj nid x

/-- Soundness of the successor fold at a given fuel. -/
def ListSound (adj : Adj) (fuel : Nat) : Prop :=
  ∀ l st x, x ∈ (dfsList adj fuel l st).1 →
    x ∈ st.1 ∨ ∃ n ∈ l, Reaches adj n x

theorem listSound_of_nodeSound (adj : Adj) (fuel : Nat)
    (h : NodeSound adj fuel) : ListSound adj fuel := by
  intro l
  induction l with
  | nil =>
    intro st x hx
    exact Or.inl (by simpa [dfsList_nil] using hx)
  | cons b bs ih =>
    intro st x hx
    rw [dfsList_cons] at hx
    rcases ih (dfsNode adj fuel b st) x hx with h1 | h1
    · rcases h b st x h1 with h2 | h2
      · exact Or.inl h2
      · exact Or.inr ⟨b, List.mem_cons_self b bs, h2⟩
    · obtain ⟨n, hn, hr⟩ := h1
      exact Or.inr ⟨n, List.mem_cons_of_mem _ hn, hr⟩

theorem nodeSound_all (adj : Adj) : ∀ fuel, NodeSound adj fuel := by
  intro fuel
  induction fuel with
  | zero =>
    intro nid st x hx
    exact Or.inl (by simpa [dfsNode_zero] using hx)
  | succ fuel ih =>
    intro nid st x hx
    by_cases hv : st.1.contains nid = true
    · rw [dfsNode_succ, if_pos hv] at hx
      exact Or.inl hx
    · rw [dfsNode_succ, if_neg hv] at hx
      simp only at hx
      rcases listSound_of_nodeSound adj fuel ih (adjGet adj nid)
          (st.1 ++ [nid], st.2) x hx with h1 | h1
      · rcases List.mem_append.mp h1 with h2 | h2
        · exact Or.inl h2
        · rw [List.mem_singleton] at h2
          exact Or.inr (h2 ▸ Reaches.refl x)
      · obtain ⟨b, hb, hr⟩ := h1
        exact Or.inr (Reaches.step hb hr)

/-! ### Unvisited counting and fuel adequacy -/

/-- Number of adjacency keys not yet visited. -/
def ucount (adj : Adj) (v : List String) : Nat :=
  ((adj.map Prod.fst).filter (fun k => !v.contains k)).length

theorem filter_length_mono {α : Type} (l : List α) (p q : α → Bool)
    (h : ∀ a, p a = true → q a = true) :
    (l.filter p).length ≤ (l.filter q).length := by
  induction l with
  | nil => exact Nat.le_refl 0
  | cons a t ih =>
    cases hp : p a with
    | true =>
      rw [List.filter_cons_of_pos hp, List.filter_cons_of_pos (h a hp)]
      simpa using ih
    | false =>
      rw [List.filter_cons_of_neg (by simp [hp])]
      cases hq : q a with
      | true =>
        rw [List.filter_cons_of_pos hq]
        exact Nat.le_trans ih (Nat.le_succ _)
      | false =>
        rw [List.filter_cons_of_neg (by simp [hq])]
        exact ih

theorem filter_length_lt {α : Type} (l : List α) (p q : α → Bool)
    (h : ∀ a, p a = true → q a = true) (a₀ : α) (ha : a₀ ∈ l)
    (hq : q a₀ = true) (hp : p a₀ = false) :
    (l.filter p).length < (l.filter q).length := by
  induction l with
  | nil => simp at ha
  | cons a t ih =>
    by_cases ha0 : a = a₀
    · subst ha0
      rw [List.filter_cons_of_neg (by simp [hp]), List.filter_cons_of_pos hq]
      exact Nat.lt_succ_of_le (filter_length_mono t p q h)
    · have hat : a₀ ∈ t := by
        rcases List.mem_cons.mp ha with h1 | h1
        · exact absurd h1.symm ha0
        · exact h1
      cases hpa : p a with
      | true =>
        rw [List.filter_cons_of_pos hpa, List.filter_cons_of_pos (h a hpa)]
        simpa using ih hat
      | false =>
        rw [List.filter_cons_of_neg (by simp [hpa])]
        cases hqa : q a with
        | true =>
          rw [List.filter_cons_of_pos hqa]
          exact Nat.lt_succ_of_lt (ih hat)
        | false =>
          rw [List.filter_cons_of_neg (by simp [hqa])]
          exact ih hat

theorem ucount_le_of_sub (adj : Adj) {v v' : List String}
    (h : ∀ x ∈ v, x ∈ v') : ucount adj v' ≤ ucount adj v := by
  refine filter_length_mono _ _ _ ?_
  intro a hp
  simp only [Bool.not_eq_true'] at hp ⊢
  cases hm : v.contains a with
  | false => rfl
  | true =>
    have : a ∈ v' := h a (by simpa using hm)
    rw [(by simpa using this : v'.contains a = true)] at hp
    exact hp

theorem ucount_lt_of_fresh (adj : Adj) {v : List String} {nid : String}
    (hmem : nid ∈ adj.map Prod.fst) (hnv : nid ∉ v) :
    ucount adj (v ++ [nid]) < ucount adj v := by
  refine filter_length_lt _ _ _ ?_ nid hmem ?_ ?_
  · intro a hp
    simp only [Bool.not_eq_true'] at hp ⊢
    cases hm : v.contains a with
    | false => rfl
    | true =>
      have : a ∈ v ++ [nid] := List.mem_append_left _ (by simpa using hm)
      rw [(by simpa using this : (v ++ [nid]).contains a = true)] at hp
      exact hp
  · simpa using hnv
  · simp

theorem adjGet_nil_of_not_mem (adj : Adj) (nid : String)
    (h : nid ∉ adj.map Prod.fst) : adjGet adj nid = [] := by
  unfold adjGet
  cases hf : adj.find? (fun p => p.1 == nid) with
  | none => rfl
  | some p =>
    have hp := List.find?_some hf
    have hmem : p ∈ adj := List.mem_of_find?_eq_some hf
    have : nid ∈ adj.map Prod.fst := by
      rw [← (by simpa using hp : p.1 = nid)]
      exact List.mem_map_of_mem Prod.fst hmem
    exact absurd this h

/-! ### DFS completeness: every reachable node is visited -/

/-- `v` is closed under successors, except possibly at the nodes of `S`
(the recursion stack). -/
def ClosedExcept (adj : Adj) (v S : List String) : Prop :=
  ∀ a ∈ v, a ∈ S ∨ ∀ b ∈ adjGet adj a, b ∈ v

/-- Completeness of one `dfs` call at a given fuel: with enough fuel the
argument node ends visited and closedness-modulo-stack is preserved. -/
def NodeComplete (adj : Adj) (fuel : Nat) : Prop :=
  ∀ S nid st, ucount adj st.1 < fuel → ClosedExcept adj st.1 S →
    nid ∈ (dfsNode adj fuel nid st).1 ∧
    ClosedExcept adj (dfsNode adj fuel nid st).1 S

/-- Completeness of the successor fold at a given fuel. -/
def ListComplete (adj : Adj) (fuel : Nat) : Prop :=
  ∀ S l st, ucount adj st.1 < fuel → ClosedExcept adj st.1 S →
    (∀ b ∈ l, b ∈ (dfsList adj fuel l st).1) ∧
    ClosedExcept adj (dfsList adj fuel l st).1 S

theorem listComplete_of_nodeComplete (adj : Adj) (fuel : Nat)
    (h : NodeComplete adj fuel) : ListComplete adj fuel := by
  intro S l
  induction l with
  | nil =>
    intro st hfuel hclosed
    exact ⟨by simp, by simpa [dfsList_nil] using hclosed⟩
  | cons b bs ih =>
    intro st hfuel hclosed
    obtain ⟨hbmem, hclosed₁⟩ := h S b st hfuel hclosed
    have hsub : ∀ x ∈ st.1, x ∈ (dfsNode adj fuel b st).1 :=
      dfsNode_mem_mono adj fuel b st
    have hfuel₁ : ucount adj (dfsNode adj fuel b st).1 < fuel :=
      Nat.lt_of_le_of_lt (ucount_le_of_sub adj hsub) hfuel
    obtain ⟨hmem₂, hclosed₂⟩ := ih (dfsNode adj fuel b st) hfuel₁ hclosed₁
    rw [dfsList_cons]
    refine ⟨?_, hclosed₂⟩
    intro b' hb'
    rcases List.mem_cons.mp hb' with h1 | h1
    · subst h1
      exact dfsList_mem_mono adj fuel bs _ b' hbmem
    · exact hmem₂ b' h1

theorem nodeComplete_all (adj : Adj) : ∀ fuel, NodeComplete adj fuel := by
  intro fuel
  induction fuel with
  | zero =>
    intro S nid st hfuel hclosed
    exact absurd hfuel (Nat.not_lt_zero _)
  | succ fuel ih =>
    intro S nid st hfuel hclosed
    by_cases hv : st.1.contains nid = true
    · rw [dfsNode_succ, if_pos hv]
      exact ⟨by simpa using hv, hclosed⟩
    · have hnv : nid ∉ st.1 := by simpa using hv
      rw [dfsNode_succ, if_neg hv]
      simp only
      have hclosed₁ : ClosedExcept adj (st.1 ++ [nid]) (S ++ [nid]) := by
        intro a ha
        rcases List.mem_append.mp ha with h1 | h1
        · rcases hclosed a h1 with h2 | h2
          · exact Or.inl (List.mem_append_left _ h2)
          · exact Or.inr (fun b hb => List.mem_append_left _ (h2 b hb))
        · exact Or.inl (List.mem_append_right _ h1)
      by_cases hmem : nid ∈ adj.map Prod.fst
      · have hfuel₁ : ucount adj (st.1 ++ [nid]) < fuel := by
          have h1 : ucount adj (st.1 ++ [nid]) < ucount adj st.1 :=
            ucount_lt_of_fresh adj hmem hnv
          omega
        obtain ⟨hsucc, hclosed₂⟩ :=
          listComplete_of_nodeComplete adj fuel ih (S ++ [nid]) (adjGet adj nid)
            (st.1 ++ [nid], st.2) hfuel₁ hclosed₁
        have hnidmem : nid ∈ (dfsList adj fuel (adjGet adj nid)
            (st.1 ++ [nid], st.2)).1 :=
          dfsList_mem_mono adj fuel _ _ nid (List.mem_append_right _ (by simp))
        refine ⟨hnidmem, ?_⟩
        intro a ha
        rcases hclosed₂ a ha with h2 | h2
        · rcases List.mem_append.mp h2 with h3 | h3
          · exact Or.inl h3
          · rw [List.mem_singleton] at h3
            subst h3
            exact Or.inr hsucc
        · exact Or.inr h2
      · rw [adjGet_nil_of_not_mem adj nid hmem, dfsList_nil]
        refine ⟨List.mem_append_right _ (by simp), ?_⟩
        intro a ha
        rcases List.mem_append.mp ha with h1 | h1
        · rcases hclosed a h1 with h2 | h2
          · exact Or.inl h2
          · exact Or.inr (fun b hb => List.mem_append_left _ (h2 b hb))
        · rw [List.mem_singleton] at h1
          subst h1
          rw [adjGet_nil_of_not_mem adj a hmem]
          exact Or.inr (by simp)

/-- A fully closed visited list absorbs reachability. -/
theorem reaches_mem_of_closed (adj : Adj) {v : List String}
    (hc : ClosedExcept adj v []) {s x : String} (hs : s ∈ v)
    (hr : Reaches adj s x) : x ∈ v := by
  induction hr with
  | refl a => exact hs
  | step hb hr ih =>
    rename_i a b c
    rcases hc a hs with h1 | h1
    · simp at h1
    · exact ih (h1 b hb)

/-! ### Fuel irrelevance: the recursion completes within the fuel bound -/

theorem listIrr (adj : Adj) (a b : Nat)
    (h : ∀ nid st, ucount adj st.1 < a → ucount adj st.1 < b →
      dfsNode adj a nid st = dfsNode adj b nid st) :
    ∀ l st, ucount adj st.1 < a → ucount adj st.1 < b →
      dfsList adj a l st = dfsList adj b l st := by
  intro l
  induction l with
  | nil => intro st h₁ h₂; rfl
  | cons c cs ih =>
    intro st h₁ h₂
    rw [dfsList_cons, dfsList_cons, h c st h₁ h₂]
    have hsub := dfsNode_mem_mono adj b c st
    exact ih (dfsNode adj b c st)
      (Nat.lt_of_le_of_lt (ucount_le_of_sub adj hsub) h₁)
      (Nat.lt_of_le_of_lt (ucount_le_of_sub adj hsub) h₂)

theorem nodeIrr_all (adj : Adj) : ∀ f₁ f₂ nid st,
    ucount adj st.1 < f₁ → ucount adj st.1 < f₂ →
    dfsNode adj f₁ nid st = dfsNode adj f₂ nid st := by
  intro f₁
  induction f₁ with
  | zero => intro f₂ nid st h₁ _; exact absurd h₁ (Nat.not_lt_zero _)
  | succ a ih =>
    intro f₂ nid st h₁ h₂
    cases f₂ with
    | zero => exact absurd h₂ (Nat.not_lt_zero _)
    | succ b =>
      by_cases hv : st.1.contains nid = true
      · rw [dfsNode_succ, dfsNode_succ, if_pos hv, if_pos hv]
      · rw [dfsNode_succ, dfsNode_succ, if_neg hv, if_neg hv]
        by_cases hmem : nid ∈ adj.map Prod.fst
        · have hnv : nid ∉ st.1 := by simpa using hv
          have hlt := ucount_lt_of_fresh adj hmem hnv
          have ha : ucount adj (st.1 ++ [nid]) < a := by omega
          have hb : ucount adj (st.1 ++ [nid]) < b := by omega
          have hirr : ∀ nid' st', ucount adj st'.1 < a → ucount adj st'.1 < b →
              dfsNode adj a nid' st' = dfsNode adj b nid' st' :=
            fun nid' st' hx hy => ih b nid' st' hx hy
          rw [listIrr adj a b hirr (adjGet adj nid) (st.1 ++ [nid], st.2) ha hb]
        · rw [adjGet_nil_of_not_mem adj nid hmem, dfsList_nil, dfsList_nil]

theorem ucount_nil (adj : Adj) : ucount adj [] = adj.length := by
  unfold ucount
  rw [List.filter_eq_self.mpr (fun a _ => by simp), List.length_map]

/-- C7: for every graph — cyclic graphs included — `compile` terminates
(the visited set bounds the recursion: any fuel beyond the number of
adjacency keys plus one gives the same output, so the modelled recursion
completes within the bound) and raises nothing (by type, `compile`
always returns a plain list); the returned order contains exactly the
nodes reachable from some start node, so nodes inside a cycle with no
external entry are silently absent and every reachable node appears. -/
theorem C7_cycles_terminate_unreachable_dropped (g : Graph) :
    (∀ nid, nid ∈ compile g ↔ ∃ s ∈ get_start_nodes g, Reaches g.adj s nid) ∧
    (∀ extra, compileFuel g (g.adj.length + 1 + extra) = compile g) := by
  constructor
  · intro nid
    unfold compile compileFuel
    rw [dfsStarts_eq, List.mem_reverse,
      dfsList_mem_iff_of_empty g.adj (g.adj.length + 1) (get_start_nodes g) nid]
    constructor
    · intro hx
      rcases listSound_of_nodeSound g.adj _ (nodeSound_all g.adj _)
          (get_start_nodes g) ([], []) nid hx with h1 | h1
      · simp at h1
      · exact h1
    · rintro ⟨s, hs, hr⟩
      have hfuel : ucount g.adj ([] : List String) < g.adj.length + 1 := by
        rw [ucount_nil]
        omega
      have hclosed : ClosedExcept g.adj [] [] := by
        intro a ha
        simp at ha
      obtain ⟨hstarts, hcl⟩ :=
        listComplete_of_nodeComplete g.adj _ (nodeComplete_all g.adj _) []
          (get_start_nodes g) ([], []) hfuel hclosed
      exact reaches_mem_of_closed g.adj hcl (hstarts s hs) hr
  · intro extra
    unfold compile compileFuel
    rw [dfsStarts_eq, dfsStarts_eq]
    have h1 : ucount g.adj ([] : List String) < g.adj.length + 1 + extra := by
      rw [ucount_nil]
      omega
    have h2 : ucount g.adj ([] : List String) < g.adj.length + 1 := by
      rw [ucount_nil]
      omega
    have hirr : ∀ nid' st', ucount g.adj st'.1 < g.adj.length + 1 + extra →
        ucount g.adj st'.1 < g.adj.length + 1 →
        dfsNode g.adj (g.adj.length + 1 + extra) nid' st' =
          dfsNode g.adj (g.adj.length + 1) nid' st' :=
      fun nid' st' hx hy => nodeIrr_all g.adj _ _ nid' st' hx hy
    rw [listIrr g.adj (g.adj.length + 1 + extra) (g.adj.length + 1) hirr
      (get_start_nodes g) ([], []) h1 h2]

/-! ### C2: what each node observes -/

/-- In a successful run over a duplicate-free order, position `j`'s node
was looked up, executed on the context accumulated by the first `j`
steps, and its result is the final context's entry for that node. -/
theorem runFrom_take_value (env : Env) (g : Graph) (l : List String)
    (ctx c' : Ctx) (h : runFrom env g l ctx = .ok c') (hnd : l.Nodup)
    (j : Nat) (hj : j < l.length) :
    ∃ cj node r, runFrom env g (l.take j) ctx = .ok cj ∧
      nodeLookup g l[j] = some node ∧
      execNode env node cj = .ok r ∧
      ctxLookup c' l[j] = some r := by
  have hsplit : l = l.take j ++ l[j] :: l.drop (j + 1) := by
    conv_lhs => rw [← List.take_append_drop j l]
    congr 1
    exact List.drop_eq_getElem_cons hj
  rw [hsplit, runFrom_append] at h
  cases hpre : runFrom env g (l.take j) ctx with
  | error e => rw [hpre] at h; simp at h
  | ok cj =>
    rw [hpre] at h
    simp only at h
    cases hn : nodeLookup g l[j] with
    | none => simp [runFrom, hn] at h
    | some node =>
      cases he : execNode env node cj with
      | error e => simp [runFrom, hn, he] at h
      | ok r =>
        simp only [runFrom, hn, he] at h
        have hnd2 : (l[j] :: l.drop (j + 1)).Nodup := by
          rw [hsplit] at hnd
          exact hnd.of_append_right
        have hnotin : l[j] ∉ l.drop (j + 1) :=
          (List.nodup_cons.mp hnd2).1
        refine ⟨cj, node, r, rfl, rfl, he, ?_⟩
        rw [runFrom_untouched env g (l.drop (j + 1)) _ c' _ h hnotin,
          ctxLookup_ctxSet_self]

def nodeBsucc : Node := ⟨"B", .fnF (fun ctx =>
  match ctxLookup ctx "A" with
  | some (.vInt n) => .ok (.vInt (n + 1))
  | _ => .error (.keyError "A"))⟩

def c2g : Graph := graphOf [nodeA1, nodeBsucc] [srcTgtEdge ("A", "B")]

def c2seed : Ctx := [("B", .vInt 0)]

/-- C2 (amended: the context node `i` receives is exactly the seed
updated with the results of nodes `0..i-1`; an entry for a node at
position `i` or later can only be present if the SEED itself contained
one — the run itself never stores a later node's result early.  The
claim's unqualified "no entry for any node at position i or later"
fails for a seed that already names a later node).  Conjuncts: (1) the
received context's keys are exactly the seed keys plus the executed
prefix; (2) keys outside the prefix keep their seed value; (3) each
executed position's node ran on the context of the steps before it and
its result is stored under its id; (4) a later-position node absent
from the seed is absent from the received context; (5) the concrete
A→B example: A returns 1, B returns ctx["A"]+1, the final context is
{"A": 1, "B": 2}. -/
theorem C2_context_visibility (env : Env) (g : Graph) (seed ci : Ctx)
    (i : Nat)
    (hrun : runFrom env g ((compile g).take i) seed = .ok ci) :
    (∀ k, ctxLookup ci k = none ↔
        (ctxLookup seed k = none ∧ k ∉ (compile g).take i)) ∧
    (∀ k, k ∉ (compile g).take i → ctxLookup ci k = ctxLookup seed k) ∧
    (∀ j, ∀ hj : j < ((compile g).take i).length, ∃ cj node r,
        runFrom env g (((compile g).take i).take j) seed = .ok cj ∧
        nodeLookup g ((compile g).take i)[j] = some node ∧
        execNode env node cj = .ok r ∧
        ctxLookup ci ((compile g).take i)[j] = some r) ∧
    (∀ j, ∀ hj : j < (compile g).length, i ≤ j →
        ctxLookup seed (compile g)[j] = none →
        ctxLookup ci (compile g)[j] = none) ∧
    (∀ env' : Env, runFrom env' c2g (compile c2g) [] =
        .ok [("A", .vInt 1), ("B", .vInt 2)]) := by
  have huntouched : ∀ k, k ∉ (compile g).take i →
      ctxLookup ci k = ctxLookup seed k :=
    fun k hk => runFrom_untouched env g _ seed ci k hrun hk
  refine ⟨?_, huntouched, ?_, ?_, fun env' => rfl⟩
  · intro k
    constructor
    · intro hnone
      have hkt : k ∉ (compile g).take i := by
        intro hk
        obtain ⟨v, hv⟩ := runFrom_covered env g _ seed ci k hrun hk
        rw [hv] at hnone
        exact Option.noConfusion hnone
      exact ⟨(huntouched k hkt).symm.trans hnone, hkt⟩
    · intro ⟨hseed, hkt⟩
      rw [huntouched k hkt, hseed]
  · intro j hj
    exact runFrom_take_value env g _ seed ci hrun
      ((compile_nodup g).sublist (List.take_sublist i _)) j hj
  · intro j hj hij hseed
    have hnd := compile_nodup g
    have hjd : j - i < ((compile g).drop i).length := by
      rw [List.length_drop]
      omega
    have hdropmem : (compile g)[j] ∈ (compile g).drop i := by
      have h1 : ((compile g).drop i).get ⟨j - i, hjd⟩ = (compile g)[j] := by
        simp only [List.get_eq_getElem, List.getElem_drop]
        congr 1
        omega
      rw [← h1]
      exact List.get_mem _ _ _
    have hnd2 : ((compile g).take i ++ (compile g).drop i).Nodup := by
      rw [List.take_append_drop]
      exact hnd
    have hdisj := (List.nodup_append.mp hnd2).2.2
    have hkt : (compile g)[j] ∉ (compile g).take i :=
      fun hk => hdisj hk hdropmem
    rw [huntouched _ hkt, hseed]

theorem C2_context_visibility_witness :
    (∀ k, ctxLookup [("A", .vInt 1)] k = none ↔
        (ctxLookup [] k = none ∧ k ∉ (compile c2g).take 1)) ∧
    (∀ k, k ∉ (compile c2g).take 1 →
        ctxLookup [("A", .vInt 1)] k = ctxLookup [] k) ∧
    (∀ j, ∀ hj : j < ((compile c2g).take 1).length, ∃ cj node r,
        runFrom envEmpty c2g (((compile c2g).take 1).take j) [] = .ok cj ∧
        nodeLookup c2g ((compile c2g).take 1)[j] = some node ∧
        execNode envEmpty node cj = .ok r ∧
        ctxLookup [("A", .vInt 1)] ((compile c2g).take 1)[j] = some r) ∧
    (∀ j, ∀ hj : j < (compile c2g).length, 1 ≤ j →
        ctxLookup [] (compile c2g)[j] = none →
        ctxLookup [("A", .vInt 1)] (compile c2g)[j] = none) ∧
    (∀ env' : Env, runFrom env' c2g (compile c2g) [] =
        .ok [("A", .vInt 1), ("B", .vInt 2)]) :=
  C2_context_visibility envEmpty c2g [] [("A", .vInt 1)] 1 rfl

/-- C2 counterexample: with the caller-supplied seed `{"B": 0}` over the
compiled order `["A", "B"]`, the context received by the node at
position 0 (namely the seed itself, before anything executed) already
contains an entry for node "B" at position 1 — contradicting "no entry
for any node at position i or later" for every seed. -/
theorem C2_counterexample :
    compile c2g = ["A", "B"] ∧
    runFrom envEmpty c2g ((compile c2g).take 0) c2seed = .ok c2seed ∧
    (compile c2g).getD 1 "" = "B" ∧
    ctxLookup c2seed "B" = some (.vInt 0) :=
  ⟨rfl, rfl, rfl, rfl⟩

end Catwalk
